import Mathlib

/-!
Verification of the figure-extraction pipelines of notes-to-notion.

The repository has two scripts:

* extract-images-openai.py: asks a remote vision model for percentage
  bounding boxes, converts them to pixel rectangles, pads and clamps them,
  and writes one crop file per surviving rectangle;
* find-image.py: a local pipeline whose dependency-free fallback runs
  edge detection and keeps contour bounding rectangles that pass an
  area filter and an aspect-ratio filter.

This file is a shallow embedding of the arithmetic and sequencing of both
pipelines.  External effects (the network call, cv2 image decoding, file
writes) are modelled by their data: the parsed response is an input, the
contour rectangles are an input, and a write is recorded as the file name
the script would pass to cv2.imwrite.  Python arithmetic on numbers read
from JSON is modelled over the exact rationals; the Python int() cast is
truncation toward zero, realised on an exact fraction by Int.tdiv.
-/

namespace NotesToNotion

/-! ## Python numeric primitives -/

/-- Truncation toward zero of an exact rational, the idealised meaning of
the Python int() cast applied to a quotient. -/
def truncQ (q : ℚ) : ℤ := if 0 ≤ q then ⌊q⌋ else ⌈q⌉

/-- Models the Python expression int(q * n / 100) for a JSON number q and
an integer n, computed on the exact rational value: the numerator and the
positive denominator of q * n / 100 are divided with truncation toward
zero.  The bridge lemma intMulDiv100_eq_truncQ below identifies this with
truncQ (q * n / 100). -/
def intMulDiv100 (q : ℚ) (n : ℤ) : ℤ := (q.num * n).tdiv ((q.den : ℤ) * 100)

/-! ## Data model of extract-images-openai.py -/

/-- A bbox object of the provider response; each field may be absent,
in which case the source supplies a default (0 for x and y, 100 for
width and height). -/
structure Bbox where
  x : Option ℚ
  y : Option ℚ
  width : Option ℚ
  height : Option ℚ
deriving DecidableEq

/-- One entry of the figures array; only the bbox member is read by the
coordinate arithmetic, and it may be absent. -/
structure Figure where
  bbox : Option Bbox
deriving DecidableEq

/-- The parsed provider response; the figures key may be absent. -/
structure DetectResponse where
  figures : Option (List Figure)
deriving DecidableEq

/-- A pixel-space rectangle as manipulated by the script: x, y, w, h
integers (possibly negative before clamping). -/
structure NormalizedRegion where
  x : ℤ
  y : ℤ
  w : ℤ
  h : ℤ
deriving DecidableEq

/-- Lines 136-139 of extract-images-openai.py: percentage bbox to pixel
coordinates, x = int(bbox.get(x, 0) * img_width / 100) and likewise for
y, width, height. -/
def bboxToPixels (imgW imgH : ℕ) (b : Bbox) : NormalizedRegion where
  x := intMulDiv100 (b.x.getD 0) imgW
  y := intMulDiv100 (b.y.getD 0) imgH
  w := intMulDiv100 (b.width.getD 100) imgW
  h := intMulDiv100 (b.height.getD 100) imgH

/-- Lines 141-149: padding_x = int(w * padding_percent / 100),
padding_y = int(h * padding_percent / 100), then x -= padding_x,
y -= padding_y, w += padding_x * 2, h += padding_y * 2. -/
def padRegion (pad : ℚ) (r : NormalizedRegion) : NormalizedRegion where
  x := r.x - intMulDiv100 pad r.w
  y := r.y - intMulDiv100 pad r.h
  w := r.w + intMulDiv100 pad r.w * 2
  h := r.h + intMulDiv100 pad r.h * 2

/-- Lines 151-155: x = max(0, x); y = max(0, y);
w = min(w, img_width - x); h = min(h, img_height - y), where the width
and height are clamped against the already-clamped origin. -/
def clampRegion (imgW imgH : ℕ) (r : NormalizedRegion) : NormalizedRegion where
  x := max 0 r.x
  y := max 0 r.y
  w := min r.w ((imgW : ℤ) - max 0 r.x)
  h := min r.h ((imgH : ℤ) - max 0 r.y)

/-- The body of the extraction loop for one figure entry: bbox defaulting
(line 133), conversion, padding, clamping, and the guard if w > 0 and
h > 0 (line 158) deciding whether a crop is written at all. -/
def normalizeFigure (imgW imgH : ℕ) (pad : ℚ) (fig : Figure) : Option NormalizedRegion :=
  let r := clampRegion imgW imgH
    (padRegion pad (bboxToPixels imgW imgH (fig.bbox.getD ⟨none, none, none, none⟩)))
  if 0 < r.w ∧ 0 < r.h then some r else none

/-- Lines 132-163: enumerate(figures) with the enumeration index i used
in the output file name; an entry that fails the w > 0 and h > 0 guard
produces no write and no path, but still advances i. -/
def extractLoop (imgW imgH : ℕ) (pad : ℚ) : ℕ → List Figure → List (ℕ × NormalizedRegion)
  | _, [] => []
  | i, fig :: rest =>
    match normalizeFigure imgW imgH pad fig with
    | some r => (i, r) :: extractLoop imgW imgH pad (i + 1) rest
    | none => extractLoop imgW imgH pad (i + 1) rest

/-- extract_figures_from_image on an already-parsed response: a missing
figures key is read as an empty list (line 118), the empty list returns
early (lines 119-120), otherwise the loop runs.  One output element
corresponds to one cv2.imwrite call and one reported path. -/
def extract_figures_from_image (resp : DetectResponse) (imgW imgH : ℕ) (pad : ℚ) :
    List (ℕ × NormalizedRegion) :=
  let figures := resp.figures.getD []
  if figures.isEmpty then [] else extractLoop imgW imgH pad 0 figures

/-- The JSON summary printed by the entry points on success. -/
structure ExtractionResult where
  success : Bool
  extracted_count : ℕ
  extracted_images : List (ℕ × NormalizedRegion)
deriving DecidableEq

/-- Lines 182-188 of extract-images-openai.py, success path of main:
the summary object built from the extracted paths. -/
def reportSuccess (resp : DetectResponse) (imgW imgH : ℕ) (pad : ℚ) : ExtractionResult :=
  let extracted := extract_figures_from_image resp imgW imgH pad
  { success := true, extracted_count := extracted.length, extracted_images := extracted }

/-! ## Claim-side definitions for C2

The spec states the conversion with round-to-nearest; these definitions
follow the spec words, to be compared against the source embedding. -/

/-- The bbox-to-pixel conversion exactly as claim C2 words it, with
round-to-nearest instead of the truncation the source performs. -/
def specRoundPixels (imgW imgH : ℕ) (b : Bbox) : NormalizedRegion where
  x := round ((b.x.getD 0) * (imgW : ℚ) / 100)
  y := round ((b.y.getD 0) * (imgH : ℚ) / 100)
  w := round ((b.width.getD 100) * (imgW : ℚ) / 100)
  h := round ((b.height.getD 100) * (imgH : ℚ) / 100)

/-! ## Data model of find-image.py (OpenCV fallback) -/

/-- Lines 104-120 of find-image.py, translated literally: a contour
bounding rectangle of width w and height h on an img_width by img_height
image is kept when min_area < area < max_area, with
min_area = imageArea * 0.02 and max_area = imageArea * 0.8, and then
0.3 < aspect_ratio < 3.0 with aspect_ratio = w / h.  The comparisons are
taken over the exact rationals. -/
def acceptRectRat (imgW imgH w h : ℕ) : Bool :=
  let imgArea : ℚ := (imgW : ℚ) * (imgH : ℚ)
  let area : ℚ := (w : ℚ) * (h : ℚ)
  if imgArea * (2 / 100) < area ∧ area < imgArea * (8 / 10) then
    decide ((3 : ℚ) / 10 < (w : ℚ) / (h : ℚ) ∧ (w : ℚ) / (h : ℚ) < 3)
  else false

/-- The same acceptance test with the denominators cleared, over ℕ; the
lemma acceptRectRat_eq_acceptRect proves it equal to the literal
translation, and it evaluates by kernel reduction. -/
def acceptRect (imgW imgH w h : ℕ) : Bool :=
  if 2 * (imgW * imgH) < 100 * (w * h) ∧ 10 * (w * h) < 8 * (imgW * imgH) then
    decide (3 * h < 10 * w ∧ w < 3 * h)
  else false

/-- Output file name pattern of both pipelines:
base plus _figure_ plus the decimal index plus .jpg. -/
def figure_file_name (base : List Char) (i : ℕ) : List Char :=
  base ++ "_figure_".toList ++ Nat.toDigits 10 i ++ ".jpg".toList

/-- Lines 110-126 of find-image.py: iterate over the contour bounding
rectangles; an accepted rectangle produces one write named with the
running figure_count, which advances only on acceptance. -/
def fallbackLoop (base : List Char) (imgW imgH : ℕ) :
    ℕ → List (ℕ × ℕ × ℕ × ℕ) → List (List Char)
  | _, [] => []
  | cnt, (_, _, w, h) :: rest =>
    if acceptRectRat imgW imgH w h then
      figure_file_name base cnt :: fallbackLoop base imgW imgH (cnt + 1) rest
    else fallbackLoop base imgW imgH cnt rest

/-- File names written by extract_images_opencv_fallback, given the
contour bounding rectangles that cv2 produced for the image. -/
def extract_images_opencv_fallback_writes (base : List Char) (imgW imgH : ℕ)
    (rects : List (ℕ × ℕ × ℕ × ℕ)) : List (List Char) :=
  fallbackLoop base imgW imgH 0 rects

/-- File names written by extract_from_base64 (lines 130-158 of
find-image.py) when the layout model is unavailable and the fallback
runs: the decoded image is first saved as filename plus _original.jpg
inside the output folder (lines 154-155), and the fallback is then run
on that file, whose base name is filename plus _original. -/
def extract_from_base64_writes (filename : List Char) (imgW imgH : ℕ)
    (rects : List (ℕ × ℕ × ℕ × ℕ)) : List (List Char) :=
  (filename ++ "_original.jpg".toList) ::
    extract_images_opencv_fallback_writes (filename ++ "_original".toList) imgW imgH rects

/-- Decides whether pat occurs as a contiguous substring. -/
def hasSubstr (pat : List Char) : List Char → Bool
  | [] => pat.isEmpty
  | c :: rest => (pat.isPrefixOf (c :: rest)) || hasSubstr pat rest

/-! ## The markdown-fence cleanup of detect_figure_regions_with_openai

Line 99 of extract-images-openai.py runs
content.replace(three-backticks-json, empty).replace(three-backticks,
empty).strip() before json.loads.  Python str.replace removes every
non-overlapping occurrence, scanning left to right; removeAll models it
for a non-empty pattern given as head and tail, with a fuel argument to
keep the recursion structural. -/

/-- The backtick character. -/
def btChar : Char := Char.ofNat 96

/-- Fuel-indexed removal of every occurrence of the pattern p :: ps,
scanning left to right; fuel at least the length of the string makes the
fuel irrelevant (lemma removeAllF_fuel). -/
def removeAllF (p : Char) (ps : List Char) : ℕ → List Char → List Char
  | 0, s => s
  | _ + 1, [] => []
  | n + 1, c :: rest =>
    if (p :: ps).isPrefixOf (c :: rest) then removeAllF p ps n (rest.drop ps.length)
    else c :: removeAllF p ps n rest

/-- Python s.replace(pattern, empty) for the non-empty pattern p :: ps. -/
def removeAll (p : Char) (ps : List Char) (s : List Char) : List Char :=
  removeAllF p ps s.length s

/-- Tail of the json code-fence pattern: two backticks then json. -/
def jsonTail : List Char := btChar :: btChar :: 'j' :: 's' :: 'o' :: 'n' :: []

/-- The full json code-fence opener: three backticks then json. -/
def jsonFence : List Char := btChar :: jsonTail

/-- Tail of the bare code-fence pattern: two backticks. -/
def tickTail : List Char := btChar :: btChar :: []

/-- A bare code fence: three backticks. -/
def tick3 : List Char := btChar :: tickTail

/-- The whitespace set stripped by Python str.strip restricted to ASCII:
space, tab, newline, carriage return, vertical tab, form feed. -/
def isPySpace (c : Char) : Bool :=
  c = ' ' || c = '\t' || c = '\n' || c = '\r' || c = Char.ofNat 11 || c = Char.ofNat 12

/-- Python s.strip(): drop whitespace from both ends. -/
def stripChars (s : List Char) : List Char :=
  ((s.dropWhile isPySpace).reverse.dropWhile isPySpace).reverse

/-- Line 99: remove every json fence opener, then every bare fence, then
strip surrounding whitespace; the result is what json.loads receives. -/
def cleanContent (s : List Char) : List Char :=
  stripChars (removeAll btChar tickTail (removeAll btChar jsonTail s))

/-! ## Bridge lemmas for the numeric primitives -/

theorem intMulDiv100_eq_truncQ (q : ℚ) (n : ℤ) :
    intMulDiv100 q n = truncQ (q * (n : ℚ) / 100) := by
  have hden : 0 < q.den := q.pos
  have hd0 : ((q.den : ℚ)) ≠ 0 := Nat.cast_ne_zero.mpr q.den_nz
  have key : (q * (n : ℚ) / 100) = ((q.num * n : ℤ) : ℚ) / (((q.den * 100 : ℕ)) : ℚ) := by
    conv_lhs => rw [← Rat.num_div_den q]
    push_cast
    field_simp
  have hbz : (0 : ℤ) < (q.den : ℤ) := by exact_mod_cast hden
  have hbpos : (0 : ℤ) < (q.den : ℤ) * 100 := by nlinarith
  unfold intMulDiv100 truncQ
  rw [key]
  by_cases hq : 0 ≤ q.num * n
  · have hnn : (0 : ℚ) ≤ ((q.num * n : ℤ) : ℚ) / (((q.den * 100 : ℕ)) : ℚ) := by
      apply div_nonneg
      · exact_mod_cast hq
      · positivity
    rw [if_pos hnn, Rat.floor_intCast_div_natCast, Int.tdiv_eq_ediv hq (le_of_lt hbpos)]
    norm_cast
  · push_neg at hq
    have hneg : ((q.num * n : ℤ) : ℚ) / (((q.den * 100 : ℕ)) : ℚ) < 0 := by
      apply div_neg_of_neg_of_pos
      · exact_mod_cast hq
      · positivity
    rw [if_neg (not_le.mpr hneg)]
    have ha : (0 : ℤ) ≤ -(q.num * n) := by omega
    have hflip : ((q.num * n : ℤ) : ℚ) / (((q.den * 100 : ℕ)) : ℚ) =
        -(((-(q.num * n) : ℤ) : ℚ) / (((q.den * 100 : ℕ)) : ℚ)) := by
      push_cast
      ring
    calc (q.num * n).tdiv ((q.den : ℤ) * 100)
        = -((-(q.num * n)).tdiv ((q.den : ℤ) * 100)) := by rw [Int.neg_tdiv, neg_neg]
      _ = -((-(q.num * n)) / ((q.den : ℤ) * 100)) := by
            rw [Int.tdiv_eq_ediv ha (le_of_lt hbpos)]
      _ = ⌈((q.num * n : ℤ) : ℚ) / (((q.den * 100 : ℕ)) : ℚ)⌉ := by
            rw [hflip, Int.ceil_neg, Rat.floor_intCast_div_natCast]
            norm_cast

theorem intMulDiv100_zero_left (n : ℤ) : intMulDiv100 0 n = 0 := by
  have h0 : (0 : ℚ).num = 0 := rfl
  unfold intMulDiv100
  rw [h0, zero_mul, Int.zero_tdiv]

theorem intMulDiv100_hundred (m : ℕ) : intMulDiv100 100 (m : ℤ) = m := by
  have h1 : (100 : ℚ).num = 100 := rfl
  have h2 : (100 : ℚ).den = 1 := rfl
  unfold intMulDiv100
  rw [h1, h2]
  push_cast
  exact Int.mul_tdiv_cancel_left _ (by norm_num)

theorem intMulDiv100_nonneg (q : ℚ) (n : ℤ) (hq : 0 ≤ q) (hn : 0 ≤ n) :
    0 ≤ intMulDiv100 q n := by
  unfold intMulDiv100
  apply Int.tdiv_nonneg
  · exact mul_nonneg (Rat.num_nonneg.mpr hq) hn
  · positivity

/-! ## Bounds established by the clamping step -/

theorem clampRegion_bounds (imgW imgH : ℕ) (r : NormalizedRegion) :
    0 ≤ (clampRegion imgW imgH r).x ∧ 0 ≤ (clampRegion imgW imgH r).y ∧
    (clampRegion imgW imgH r).x + (clampRegion imgW imgH r).w ≤ (imgW : ℤ) ∧
    (clampRegion imgW imgH r).y + (clampRegion imgW imgH r).h ≤ (imgH : ℤ) := by
  unfold clampRegion
  refine ⟨le_max_left _ _, le_max_left _ _, ?_, ?_⟩
  · have h := min_le_right r.w ((imgW : ℤ) - max 0 r.x)
    dsimp only at h ⊢
    linarith
  · have h := min_le_right r.h ((imgH : ℤ) - max 0 r.y)
    dsimp only at h ⊢
    linarith

/-- C1: for every figure the remote provider returned whose region
survives normalization (the post-clamp width and height are positive, so
a some result is emitted), the emitted rectangle lies inside the image:
x and y are non-negative and x + w and y + h do not exceed the image
dimensions, for every percentage bbox, image dimensions at least 1 and
non-negative padding percent. -/
theorem C1_normalized_region_within_bounds (b : Bbox) (imgW imgH : ℕ) (pad : ℚ)
    (r : NormalizedRegion) (hW : 1 ≤ imgW) (hH : 1 ≤ imgH) (hpad : 0 ≤ pad)
    (h : normalizeFigure imgW imgH pad ⟨some b⟩ = some r) :
    0 ≤ r.x ∧ 0 ≤ r.y ∧ r.x + r.w ≤ (imgW : ℤ) ∧ r.y + r.h ≤ (imgH : ℤ) := by
  simp only [normalizeFigure] at h
  split_ifs at h
  all_goals cases h
  all_goals exact clampRegion_bounds imgW imgH _

/-- Witness for C1 at a concrete input: the bbox 10, 20, 30, 40 on a
100 by 100 image with padding 8 normalizes to the rectangle
(8, 17, 34, 46), which the theorem places inside the image. -/
theorem C1_normalized_region_within_bounds_witness :
    0 ≤ (8 : ℤ) ∧ 0 ≤ (17 : ℤ) ∧ (8 : ℤ) + 34 ≤ ((100 : ℕ) : ℤ) ∧
      (17 : ℤ) + 46 ≤ ((100 : ℕ) : ℤ) :=
  C1_normalized_region_within_bounds ⟨some 10, some 20, some 30, some 40⟩ 100 100 8
    ⟨8, 17, 34, 46⟩ (by decide) (by decide) (by decide) (by decide)

/-- C4: a pixel rectangle that already satisfies the NormalizedRegion
bounds is returned unchanged by the padding-and-clamping step run with
padding percent 0. -/
theorem C4_pad_clamp_idempotent (imgW imgH : ℕ) (r : NormalizedRegion)
    (hx : 0 ≤ r.x) (hy : 0 ≤ r.y) (hxw : r.x + r.w ≤ (imgW : ℤ))
    (hyh : r.y + r.h ≤ (imgH : ℤ)) :
    clampRegion imgW imgH (padRegion 0 r) = r := by
  obtain ⟨x, y, w, h⟩ := r
  dsimp only at hx hy hxw hyh
  simp only [padRegion, clampRegion, intMulDiv100_zero_left, zero_mul, sub_zero, add_zero,
    mul_comm]
  have hx' : max 0 x = x := max_eq_right hx
  have hy' : max 0 y = y := max_eq_right hy
  simp only [NormalizedRegion.mk.injEq, hx', hy']
  exact ⟨trivial, trivial, min_eq_left (by omega), min_eq_left (by omega)⟩

/-- Witness for C4 at a concrete input: the rectangle (10, 10, 20, 20)
inside a 100 by 100 image is unchanged. -/
theorem C4_pad_clamp_idempotent_witness :
    clampRegion 100 100 (padRegion 0 ⟨10, 10, 20, 20⟩) = ⟨10, 10, 20, 20⟩ :=
  C4_pad_clamp_idempotent 100 100 ⟨10, 10, 20, 20⟩ (by decide) (by decide) (by decide)
    (by decide)

/-- C2 as amended: the source converts and pads with the Python int()
cast, truncation toward zero, not round-to-nearest: each pixel
coordinate is trunc of pct times dimension over 100, the paddings are
trunc of w times paddingPercent over 100 and trunc of h times
paddingPercent over 100, and the expansion is x minus padX, y minus
padY, w plus twice padX, h plus twice padY. -/
theorem C2_truncating_conversion_and_padding (b : Bbox) (imgW imgH : ℕ) (pad : ℚ)
    (r : NormalizedRegion) :
    bboxToPixels imgW imgH b =
      { x := truncQ ((b.x.getD 0) * (imgW : ℚ) / 100)
        y := truncQ ((b.y.getD 0) * (imgH : ℚ) / 100)
        w := truncQ ((b.width.getD 100) * (imgW : ℚ) / 100)
        h := truncQ ((b.height.getD 100) * (imgH : ℚ) / 100) } ∧
    padRegion pad r =
      { x := r.x - truncQ ((r.w : ℚ) * pad / 100)
        y := r.y - truncQ ((r.h : ℚ) * pad / 100)
        w := r.w + 2 * truncQ ((r.w : ℚ) * pad / 100)
        h := r.h + 2 * truncQ ((r.h : ℚ) * pad / 100) } := by
  have hw : intMulDiv100 pad r.w = truncQ ((r.w : ℚ) * pad / 100) := by
    rw [intMulDiv100_eq_truncQ]
    congr 1
    ring
  have hh : intMulDiv100 pad r.h = truncQ ((r.h : ℚ) * pad / 100) := by
    rw [intMulDiv100_eq_truncQ]
    congr 1
    ring
  constructor
  · unfold bboxToPixels
    simp only [NormalizedRegion.mk.injEq]
    exact ⟨intMulDiv100_eq_truncQ _ _, intMulDiv100_eq_truncQ _ _,
      intMulDiv100_eq_truncQ _ _, intMulDiv100_eq_truncQ _ _⟩
  · unfold padRegion
    simp only [NormalizedRegion.mk.injEq, hw, hh]
    exact ⟨trivial, trivial, by ring, by ring⟩

/-- Counterexample to C2 as stated: on a 150 by 150 image the bbox with
x equal to 1 percent converts to pixel 1 in the source (int truncates
1.5 down) while the claimed round-to-nearest formula yields 2. -/
theorem C2_round_counterexample :
    bboxToPixels 150 150 ⟨some 1, some 0, some 10, some 10⟩ ≠
      specRoundPixels 150 150 ⟨some 1, some 0, some 10, some 10⟩ ∧
    (bboxToPixels 150 150 ⟨some 1, some 0, some 10, some 10⟩).x = 1 ∧
    (specRoundPixels 150 150 ⟨some 1, some 0, some 10, some 10⟩).x = 2 := by
  have hs : (specRoundPixels 150 150 ⟨some 1, some 0, some 10, some 10⟩).x = 2 := by
    show round ((1 : ℚ) * ((150 : ℕ) : ℚ) / 100) = 2
    rw [round_eq]
    norm_num
  refine ⟨?_, by decide, hs⟩
  intro heq
  have hx := congrArg NormalizedRegion.x heq
  rw [hs] at hx
  exact absurd hx (by decide)

/-- C6: on a 1000 by 1000 image the percentage bbox 10, 20, 30, 40
converts to the pixel rectangle (100, 200, 300, 400); with padding 0 the
normalizer emits it unchanged, and with padding 8 the paddings are 24
and 32, giving (76, 168, 348, 464). -/
theorem C6_concrete_normalization :
    bboxToPixels 1000 1000 ⟨some 10, some 20, some 30, some 40⟩ = ⟨100, 200, 300, 400⟩ ∧
    normalizeFigure 1000 1000 0 ⟨some ⟨some 10, some 20, some 30, some 40⟩⟩ =
      some ⟨100, 200, 300, 400⟩ ∧
    intMulDiv100 8 300 = 24 ∧ intMulDiv100 8 400 = 32 ∧
    padRegion 8 ⟨100, 200, 300, 400⟩ = ⟨76, 168, 348, 464⟩ ∧
    normalizeFigure 1000 1000 8 ⟨some ⟨some 10, some 20, some 30, some 40⟩⟩ =
      some ⟨76, 168, 348, 464⟩ := by decide

/-- C10: a figure entry with no bbox, or a bbox with every field absent,
is not rejected: the defaults x = 0, y = 0, width = 100, height = 100
make it the full image, padding then clamping give back exactly the full
image, and a crop is emitted for it. -/
theorem C10_missing_bbox_defaults_to_full_image (imgW imgH : ℕ) (pad : ℚ)
    (hW : 1 ≤ imgW) (hH : 1 ≤ imgH) (hpad : 0 ≤ pad) :
    normalizeFigure imgW imgH pad ⟨none⟩ = some ⟨0, 0, (imgW : ℤ), (imgH : ℤ)⟩ ∧
    normalizeFigure imgW imgH pad ⟨some ⟨none, none, none, none⟩⟩ =
      some ⟨0, 0, (imgW : ℤ), (imgH : ℤ)⟩ ∧
    extract_figures_from_image ⟨some [⟨none⟩]⟩ imgW imgH pad =
      [(0, ⟨0, 0, (imgW : ℤ), (imgH : ℤ)⟩)] := by
  have hpx : 0 ≤ intMulDiv100 pad (imgW : ℤ) :=
    intMulDiv100_nonneg _ _ hpad (by positivity)
  have hpy : 0 ≤ intMulDiv100 pad (imgH : ℤ) :=
    intMulDiv100_nonneg _ _ hpad (by positivity)
  have hW' : (0 : ℤ) < (imgW : ℤ) := by exact_mod_cast hW
  have hH' : (0 : ℤ) < (imgH : ℤ) := by exact_mod_cast hH
  have hbase : bboxToPixels imgW imgH ⟨none, none, none, none⟩ =
      ⟨0, 0, (imgW : ℤ), (imgH : ℤ)⟩ := by
    unfold bboxToPixels
    simp only [Option.getD_none]
    rw [intMulDiv100_zero_left, intMulDiv100_zero_left, intMulDiv100_hundred,
      intMulDiv100_hundred]
  have hmain : clampRegion imgW imgH (padRegion pad ⟨0, 0, (imgW : ℤ), (imgH : ℤ)⟩) =
      ⟨0, 0, (imgW : ℤ), (imgH : ℤ)⟩ := by
    unfold padRegion clampRegion
    dsimp only
    have hx0 : max 0 ((0 : ℤ) - intMulDiv100 pad (imgW : ℤ)) = 0 := max_eq_left (by omega)
    have hy0 : max 0 ((0 : ℤ) - intMulDiv100 pad (imgH : ℤ)) = 0 := max_eq_left (by omega)
    simp only [NormalizedRegion.mk.injEq, hx0, hy0, sub_zero]
    exact ⟨trivial, trivial, min_eq_right (by omega), min_eq_right (by omega)⟩
  have hsome : normalizeFigure imgW imgH pad ⟨some ⟨none, none, none, none⟩⟩ =
      some ⟨0, 0, (imgW : ℤ), (imgH : ℤ)⟩ := by
    simp only [normalizeFigure, Option.getD_some, hbase, hmain]
    split_ifs with hc
    · rfl
    · exact absurd ⟨hW', hH'⟩ hc
  have hnone : normalizeFigure imgW imgH pad ⟨none⟩ =
      some ⟨0, 0, (imgW : ℤ), (imgH : ℤ)⟩ := by
    simp only [normalizeFigure, Option.getD_none, hbase, hmain]
    split_ifs with hc
    · rfl
    · exact absurd ⟨hW', hH'⟩ hc
  refine ⟨hnone, hsome, ?_⟩
  simp only [extract_figures_from_image, Option.getD_some, List.isEmpty_cons, extractLoop,
    hnone]
  rfl

/-- Witness for C10 on a 100 by 100 image with padding 8. -/
theorem C10_missing_bbox_defaults_to_full_image_witness :
    normalizeFigure 100 100 8 ⟨none⟩ = some ⟨0, 0, ((100 : ℕ) : ℤ), ((100 : ℕ) : ℤ)⟩ ∧
    normalizeFigure 100 100 8 ⟨some ⟨none, none, none, none⟩⟩ =
      some ⟨0, 0, ((100 : ℕ) : ℤ), ((100 : ℕ) : ℤ)⟩ ∧
    extract_figures_from_image ⟨some [⟨none⟩]⟩ 100 100 8 =
      [(0, ⟨0, 0, ((100 : ℕ) : ℤ), ((100 : ℕ) : ℤ)⟩)] :=
  C10_missing_bbox_defaults_to_full_image 100 100 8 (by decide) (by decide) (by decide)

/-- C8: a parsed response without a figures key yields the empty
extraction (no write is attempted), and the response with an empty
figures array reports success with extracted count 0 and no paths. -/
theorem C8_missing_or_empty_figures_ok (imgW imgH : ℕ) (pad : ℚ) :
    extract_figures_from_image ⟨none⟩ imgW imgH pad = [] ∧
    reportSuccess ⟨some []⟩ imgW imgH pad =
      { success := true, extracted_count := 0, extracted_images := [] } :=
  ⟨rfl, rfl⟩

/-! ## Loop lemmas for C3 -/

theorem extractLoop_length_le (imgW imgH : ℕ) (pad : ℚ) :
    ∀ (figs : List Figure) (i : ℕ),
      (extractLoop imgW imgH pad i figs).length ≤ figs.length := by
  intro figs
  induction figs with
  | nil =>
    intro i
    simp [extractLoop]
  | cons fig rest ih =>
    intro i
    cases hn : normalizeFigure imgW imgH pad fig with
    | some r =>
      simp only [extractLoop, hn, List.length_cons]
      exact Nat.succ_le_succ (ih (i + 1))
    | none =>
      simp only [extractLoop, hn, List.length_cons]
      exact Nat.le_succ_of_le (ih (i + 1))

theorem extractLoop_pos (imgW imgH : ℕ) (pad : ℚ) :
    ∀ (figs : List Figure) (i : ℕ),
      (extractLoop imgW imgH pad i figs).all
        (fun p => decide (0 < p.2.w) && decide (0 < p.2.h)) = true := by
  intro figs
  induction figs with
  | nil =>
    intro i
    rfl
  | cons fig rest ih =>
    intro i
    cases hn : normalizeFigure imgW imgH pad fig with
    | none =>
      simp only [extractLoop, hn]
      exact ih (i + 1)
    | some r =>
      have hr : 0 < r.w ∧ 0 < r.h := by
        simp only [normalizeFigure] at hn
        split_ifs at hn with hc
        all_goals cases hn
        all_goals exact hc
      simp only [extractLoop, hn, List.all_cons]
      rw [ih (i + 1)]
      simp [hr.1, hr.2]

theorem fallbackLoop_length_le (base : List Char) (imgW imgH : ℕ) :
    ∀ (rects : List (ℕ × ℕ × ℕ × ℕ)) (cnt : ℕ),
      (fallbackLoop base imgW imgH cnt rects).length ≤ rects.length := by
  intro rects
  induction rects with
  | nil =>
    intro cnt
    simp [fallbackLoop]
  | cons rect rest ih =>
    intro cnt
    obtain ⟨x, y, w, h⟩ := rect
    by_cases ha : acceptRectRat imgW imgH w h = true
    · simp only [fallbackLoop, ha, if_true, List.length_cons]
      exact Nat.succ_le_succ (ih (cnt + 1))
    · simp only [fallbackLoop, List.length_cons]
      rw [if_neg ha]
      exact Nat.le_succ_of_le (ih cnt)

/-- C3: the number of regions emitted (each one a written file and a
reported path) never exceeds the number of figure entries in the
provider response, every emitted region has positive width and height
(a region whose post-clamp width or height is not positive is excluded
from the output sequence entirely), and the local fallback likewise
never writes more crops than it got contour rectangles. -/
theorem C3_output_count_and_zero_size_exclusion :
    ∀ (resp : DetectResponse) (imgW imgH : ℕ) (pad : ℚ),
      (extract_figures_from_image resp imgW imgH pad).length ≤
        (resp.figures.getD []).length ∧
      (extract_figures_from_image resp imgW imgH pad).all
        (fun p => decide (0 < p.2.w) && decide (0 < p.2.h)) = true ∧
      ∀ (base : List Char) (rects : List (ℕ × ℕ × ℕ × ℕ)) (cnt : ℕ),
        (fallbackLoop base imgW imgH cnt rects).length ≤ rects.length := by
  intro resp imgW imgH pad
  refine ⟨?_, ?_, fun base rects cnt => fallbackLoop_length_le base imgW imgH rects cnt⟩
  · simp only [extract_figures_from_image]
    split_ifs with he
    · simp
    · exact extractLoop_length_le imgW imgH pad _ 0
  · simp only [extract_figures_from_image]
    split_ifs with he
    · rfl
    · exact extractLoop_pos imgW imgH pad _ 0

/-! ## The contour acceptance test -/

theorem acceptRectRat_eq_acceptRect (imgW imgH w h : ℕ) :
    acceptRectRat imgW imgH w h = acceptRect imgW imgH w h := by
  have harea : ((imgW : ℚ) * (imgH : ℚ) * (2 / 100) < (w : ℚ) * (h : ℚ) ∧
      (w : ℚ) * (h : ℚ) < (imgW : ℚ) * (imgH : ℚ) * (8 / 10)) ↔
      (2 * (imgW * imgH) < 100 * (w * h) ∧ 10 * (w * h) < 8 * (imgW * imgH)) := by
    constructor
    · rintro ⟨h1, h2⟩
      constructor
      · have hq : ((2 * (imgW * imgH) : ℕ) : ℚ) < ((100 * (w * h) : ℕ) : ℚ) := by
          push_cast
          nlinarith
        exact_mod_cast hq
      · have hq : ((10 * (w * h) : ℕ) : ℚ) < ((8 * (imgW * imgH) : ℕ) : ℚ) := by
          push_cast
          nlinarith
        exact_mod_cast hq
    · rintro ⟨h1, h2⟩
      have h1' : ((2 * (imgW * imgH) : ℕ) : ℚ) < ((100 * (w * h) : ℕ) : ℚ) := by
        exact_mod_cast h1
      have h2' : ((10 * (w * h) : ℕ) : ℚ) < ((8 * (imgW * imgH) : ℕ) : ℚ) := by
        exact_mod_cast h2
      push_cast at h1' h2'
      constructor
      · nlinarith
      · nlinarith
  have haspect : ((3 : ℚ) / 10 < (w : ℚ) / (h : ℚ) ∧ (w : ℚ) / (h : ℚ) < 3) ↔
      (3 * h < 10 * w ∧ w < 3 * h) := by
    rcases Nat.eq_zero_or_pos h with hz | hpos
    · subst hz
      constructor
      · rintro ⟨h1, _⟩
        rw [Nat.cast_zero, div_zero] at h1
        exact absurd h1 (by norm_num)
      · rintro ⟨_, h2⟩
        omega
    · have hq : (0 : ℚ) < (h : ℚ) := by exact_mod_cast hpos
      rw [div_lt_div_iff₀ (by norm_num) hq, div_lt_iff₀ hq]
      constructor
      · rintro ⟨h1, h2⟩
        constructor
        · have hn : ((3 * h : ℕ) : ℚ) < ((10 * w : ℕ) : ℚ) := by
            push_cast
            nlinarith
          exact_mod_cast hn
        · have hn : ((w : ℕ) : ℚ) < ((3 * h : ℕ) : ℚ) := by
            push_cast
            nlinarith
          exact_mod_cast hn
      · rintro ⟨h1, h2⟩
        have h1' : ((3 * h : ℕ) : ℚ) < ((10 * w : ℕ) : ℚ) := by exact_mod_cast h1
        have h2' : ((w : ℕ) : ℚ) < ((3 * h : ℕ) : ℚ) := by exact_mod_cast h2
        push_cast at h1' h2'
        constructor
        · nlinarith
        · nlinarith
  simp only [acceptRectRat, acceptRect, harea, haspect]

/-- C5: the geometric heuristic accepts a contour bounding rectangle
exactly when its area lies strictly between 2 percent and 80 percent of
the image area and its aspect ratio lies strictly between 0.3 and 3.
Concretely, a 15 by 10 rectangle on a 50 by 30 image (10 percent of the
frame, aspect ratio 1.5) is accepted; a 50 by 38 rectangle on a 40 by 50
image (95 percent of the frame) is rejected by the area bound; and a
1 by 50 sliver on a 10 by 10 image passes the area test but is rejected
by the aspect-ratio bound. -/
theorem C5_contour_filter_characterization :
    (∀ imgW imgH w h : ℕ,
      acceptRectRat imgW imgH w h = true ↔
        ((imgW : ℚ) * (imgH : ℚ) * (2 / 100) < (w : ℚ) * (h : ℚ) ∧
         (w : ℚ) * (h : ℚ) < (imgW : ℚ) * (imgH : ℚ) * (8 / 10) ∧
         (3 : ℚ) / 10 < (w : ℚ) / (h : ℚ) ∧ (w : ℚ) / (h : ℚ) < 3)) ∧
    acceptRectRat 50 30 15 10 = true ∧
    acceptRectRat 40 50 50 38 = false ∧
    acceptRectRat 10 10 1 50 = false := by
  refine ⟨?_, by rw [acceptRectRat_eq_acceptRect]; decide,
    by rw [acceptRectRat_eq_acceptRect]; decide,
    by rw [acceptRectRat_eq_acceptRect]; decide⟩
  intro imgW imgH w h
  simp only [acceptRectRat]
  split_ifs with hp
  · simp only [decide_eq_true_eq]
    constructor
    · intro ha
      exact ⟨hp.1, hp.2, ha.1, ha.2⟩
    · intro hall
      exact ⟨hall.2.2.1, hall.2.2.2⟩
  · simp only [Bool.false_eq_true, false_iff]
    intro hall
    exact hp ⟨hall.1, hall.2.1⟩

/-! ## Fallback write lists for C9 -/

theorem fallbackLoop_eq_range (base : List Char) (imgW imgH : ℕ) :
    ∀ (rects : List (ℕ × ℕ × ℕ × ℕ)) (cnt : ℕ),
      fallbackLoop base imgW imgH cnt rects =
        (List.range' cnt
          (rects.filter
            (fun rect => acceptRectRat imgW imgH rect.2.2.1 rect.2.2.2)).length).map
          (figure_file_name base) := by
  intro rects
  induction rects with
  | nil =>
    intro cnt
    rfl
  | cons rect rest ih =>
    intro cnt
    obtain ⟨x, y, w, h⟩ := rect
    by_cases ha : acceptRectRat imgW imgH w h = true
    · simp only [fallbackLoop, ha, if_true, List.filter_cons, List.length_cons,
        List.range'_succ, List.map_cons]
      exact congrArg _ (ih (cnt + 1))
    · simp only [fallbackLoop, List.filter_cons]
      rw [if_neg ha]
      simp only [ha, Bool.false_eq_true, if_false]
      exact ih cnt

theorem hasSubstr_cons (pat : List Char) (c : Char) (rest : List Char) :
    hasSubstr pat (c :: rest) = (pat.isPrefixOf (c :: rest) || hasSubstr pat rest) := rfl

theorem isPrefixOf_append_self : ∀ (l t : List Char), l.isPrefixOf (l ++ t) = true := by
  intro l
  induction l with
  | nil =>
    intro t
    show List.isPrefixOf [] t = true
    cases t <;> rfl
  | cons a as ih =>
    intro t
    simp only [List.cons_append, List.isPrefixOf, BEq.refl, Bool.true_and]
    exact ih t

theorem hasSubstr_middle : ∀ (xs pat ys : List Char),
    hasSubstr pat (xs ++ (pat ++ ys)) = true := by
  intro xs
  induction xs with
  | nil =>
    intro pat ys
    cases pat with
    | nil =>
      cases ys with
      | nil => rfl
      | cons c cs => rfl
    | cons p ps =>
      have h := isPrefixOf_append_self (p :: ps) ys
      rw [List.cons_append] at h
      rw [List.nil_append, List.cons_append, hasSubstr_cons, h]
      rfl
  | cons x xs ih =>
    intro pat ys
    rw [List.cons_append, hasSubstr_cons, ih pat ys, Bool.or_true]

/-- Counterexample to C9 as stated: through the in-process base64 entry
point the program writes the decoded image itself as
uploaded_image_original.jpg inside the output folder, a file that does
not match the crop pattern baseName_figure_index.jpg (it contains no
_figure_ fragment). -/
theorem C9_base64_extra_file_counterexample :
    "uploaded_image_original.jpg".toList ∈
      extract_from_base64_writes "uploaded_image".toList 100 100 [(10, 10, 50, 40)] ∧
    hasSubstr "_figure_".toList "uploaded_image_original.jpg".toList = false := by
  constructor
  · have hhead : "uploaded_image".toList ++ "_original.jpg".toList =
        "uploaded_image_original.jpg".toList := by decide
    simp only [extract_from_base64_writes, hhead]
    exact List.mem_cons_self _ _
  · decide

/-- C9 as amended: the base64 entry point writes exactly the decoded
original image, named filename plus _original.jpg, followed by the crop
files, which are named with base filename plus _original and the crop
pattern _figure_ index .jpg with consecutive indices starting at 0, one
per accepted rectangle; every crop file name contains the _figure_
fragment, so the original file is the single write outside the claimed
pattern. -/
theorem C9_amended_base64_writes :
    (∀ (filename : List Char) (imgW imgH : ℕ) (rects : List (ℕ × ℕ × ℕ × ℕ)),
      extract_from_base64_writes filename imgW imgH rects =
        (filename ++ "_original.jpg".toList) ::
          (List.range' 0
            (rects.filter
              (fun rect => acceptRectRat imgW imgH rect.2.2.1 rect.2.2.2)).length).map
            (figure_file_name (filename ++ "_original".toList))) ∧
    ∀ (base : List Char) (i : ℕ),
      hasSubstr "_figure_".toList (figure_file_name base i) = true := by
  constructor
  · intro filename imgW imgH rects
    simp only [extract_from_base64_writes, extract_images_opencv_fallback_writes]
    exact congrArg _ (fallbackLoop_eq_range _ imgW imgH rects 0)
  · intro base i
    unfold figure_file_name
    rw [List.append_assoc, List.append_assoc]
    exact hasSubstr_middle base _ _

/-! ## Equations and order facts for the fence-removal machinery -/

theorem isPrefixOf_nil_left (s : List Char) : List.isPrefixOf [] s = true := by
  cases s <;> rfl

theorem isPrefixOf_cons_nil (p : Char) (ps : List Char) :
    List.isPrefixOf (p :: ps) ([] : List Char) = false := rfl

theorem isPrefixOf_cons_cons (p c : Char) (ps cs : List Char) :
    List.isPrefixOf (p :: ps) (c :: cs) = ((p == c) && List.isPrefixOf ps cs) := rfl

theorem isPrefixOf_length_le : ∀ (l s : List Char), l.isPrefixOf s = true →
    l.length ≤ s.length := by
  intro l
  induction l with
  | nil =>
    intro s _
    simp
  | cons a as ih =>
    intro s h
    cases s with
    | nil => exact absurd h (by rw [isPrefixOf_cons_nil]; simp)
    | cons b bs =>
      rw [isPrefixOf_cons_cons, Bool.and_eq_true] at h
      simpa using Nat.succ_le_succ (ih bs h.2)

theorem isPrefixOf_append_extend : ∀ (l s t : List Char), l.isPrefixOf s = true →
    l.isPrefixOf (s ++ t) = true := by
  intro l
  induction l with
  | nil =>
    intro s t _
    exact isPrefixOf_nil_left _
  | cons a as ih =>
    intro s t h
    cases s with
    | nil => exact absurd h (by rw [isPrefixOf_cons_nil]; simp)
    | cons b bs =>
      rw [isPrefixOf_cons_cons, Bool.and_eq_true] at h
      rw [List.cons_append, isPrefixOf_cons_cons, Bool.and_eq_true]
      exact ⟨h.1, ih bs t h.2⟩

theorem removeAllF_mono (p : Char) (ps : List Char) :
    ∀ (n m : ℕ) (s : List Char), s.length ≤ n → s.length ≤ m →
      removeAllF p ps n s = removeAllF p ps m s := by
  intro n
  induction n with
  | zero =>
    intro m s hn _
    have hs : s = [] := List.length_eq_zero.mp (Nat.le_zero.mp hn)
    subst hs
    cases m <;> rfl
  | succ n ih =>
    intro m s hn hm
    cases s with
    | nil => cases m <;> rfl
    | cons c rest =>
      cases m with
      | zero => simp at hm
      | succ m =>
        have hrn : rest.length ≤ n := by
          simp only [List.length_cons] at hn
          omega
        have hrm : rest.length ≤ m := by
          simp only [List.length_cons] at hm
          omega
        have hdn : (rest.drop ps.length).length ≤ n := by
          rw [List.length_drop]
          omega
        have hdm : (rest.drop ps.length).length ≤ m := by
          rw [List.length_drop]
          omega
        show (if (p :: ps).isPrefixOf (c :: rest) then removeAllF p ps n (rest.drop ps.length)
            else c :: removeAllF p ps n rest) =
          (if (p :: ps).isPrefixOf (c :: rest) then removeAllF p ps m (rest.drop ps.length)
            else c :: removeAllF p ps m rest)
        split_ifs with hp
        · exact ih m (rest.drop ps.length) hdn hdm
        · exact congrArg (List.cons c) (ih m rest hrn hrm)

theorem removeAll_cons (p : Char) (ps : List Char) (c : Char) (rest : List Char) :
    removeAll p ps (c :: rest) =
      if (p :: ps).isPrefixOf (c :: rest) then removeAll p ps (rest.drop ps.length)
      else c :: removeAll p ps rest := by
  show (if (p :: ps).isPrefixOf (c :: rest) then removeAllF p ps rest.length (rest.drop ps.length)
      else c :: removeAllF p ps rest.length rest) = _
  split_ifs with hp
  · exact removeAllF_mono p ps rest.length (rest.drop ps.length).length (rest.drop ps.length)
      (by rw [List.length_drop]; omega) le_rfl
  · rfl

/-- No occurrence of the json fence opener can span the boundary between
a string and an appended bare fence: the opener ends in json letters
while the appended fence is all backticks. -/
theorem fence_of_append (s : List Char)
    (h : jsonFence.isPrefixOf (s ++ tick3) = true) : jsonFence.isPrefixOf s = true := by
  rcases s with _ | ⟨a, _ | ⟨b, _ | ⟨c, _ | ⟨d, _ | ⟨e, _ | ⟨f, _ | ⟨g, t⟩⟩⟩⟩⟩⟩⟩
  · exact absurd h (by decide)
  · have hj : ('j' == btChar) = false := by decide
    simp only [jsonFence, jsonTail, tick3, tickTail, List.cons_append, List.nil_append,
      isPrefixOf_cons_cons, hj, Bool.false_and, Bool.and_false, Bool.false_eq_true] at h
  · have hj : ('j' == btChar) = false := by decide
    simp only [jsonFence, jsonTail, tick3, tickTail, List.cons_append, List.nil_append,
      isPrefixOf_cons_cons, hj, Bool.false_and, Bool.and_false, Bool.false_eq_true] at h
  · have hj : ('j' == btChar) = false := by decide
    simp only [jsonFence, jsonTail, tick3, tickTail, List.cons_append, List.nil_append,
      isPrefixOf_cons_cons, hj, Bool.false_and, Bool.and_false, Bool.false_eq_true] at h
  · have hs : ('s' == btChar) = false := by decide
    simp only [jsonFence, jsonTail, tick3, tickTail, List.cons_append, List.nil_append,
      isPrefixOf_cons_cons, hs, Bool.false_and, Bool.and_false, Bool.false_eq_true] at h
  · have ho : ('o' == btChar) = false := by decide
    simp only [jsonFence, jsonTail, tick3, tickTail, List.cons_append, List.nil_append,
      isPrefixOf_cons_cons, ho, Bool.false_and, Bool.and_false, Bool.false_eq_true] at h
  · have hn : ('n' == btChar) = false := by decide
    simp only [jsonFence, jsonTail, tick3, tickTail, List.cons_append, List.nil_append,
      isPrefixOf_cons_cons, hn, Bool.false_and, Bool.and_false, Bool.false_eq_true] at h
  · have key : jsonFence.isPrefixOf ((a :: b :: c :: d :: e :: f :: g :: t) ++ tick3) =
        jsonFence.isPrefixOf (a :: b :: c :: d :: e :: f :: g :: t) := by
      simp only [jsonFence, jsonTail, List.cons_append, isPrefixOf_cons_cons]
      rw [isPrefixOf_nil_left, isPrefixOf_nil_left]
    rw [key] at h
    exact h

theorem removeAll_jsonFence_absorb (u : List Char) :
    removeAll btChar jsonTail (jsonFence ++ u) = removeAll btChar jsonTail u := by
  have hpre : (btChar :: jsonTail).isPrefixOf (btChar :: (jsonTail ++ u)) = true := by
    rw [isPrefixOf_cons_cons, Bool.and_eq_true]
    exact ⟨by decide, isPrefixOf_append_extend jsonTail jsonTail u (by decide)⟩
  show removeAll btChar jsonTail (btChar :: (jsonTail ++ u)) = _
  rw [removeAll_cons, if_pos hpre]
  congr 1

theorem removeAll_jsonTail_append : ∀ (s : List Char),
    removeAll btChar jsonTail (s ++ tick3) = removeAll btChar jsonTail s ++ tick3 := by
  suffices haux : ∀ (n : ℕ) (s : List Char), s.length ≤ n →
      removeAll btChar jsonTail (s ++ tick3) = removeAll btChar jsonTail s ++ tick3 by
    intro s
    exact haux s.length s le_rfl
  intro n
  induction n with
  | zero =>
    intro s hs
    have h0 : s = [] := List.length_eq_zero.mp (Nat.le_zero.mp hs)
    subst h0
    decide
  | succ n ih =>
    intro s hs
    cases s with
    | nil => decide
    | cons c rest =>
      have hrest : rest.length ≤ n := by
        simp only [List.length_cons] at hs
        omega
      rw [List.cons_append, removeAll_cons, removeAll_cons]
      by_cases hp : (btChar :: jsonTail).isPrefixOf (c :: rest) = true
      · have hp2 : (btChar :: jsonTail).isPrefixOf (c :: (rest ++ tick3)) = true := by
          have hext := isPrefixOf_append_extend (btChar :: jsonTail) (c :: rest) tick3 hp
          rwa [List.cons_append] at hext
        rw [if_pos hp2, if_pos hp]
        have hlen : jsonTail.length ≤ rest.length := by
          have h7 := isPrefixOf_length_le (btChar :: jsonTail) (c :: rest) hp
          simp only [List.length_cons] at h7
          omega
        rw [List.drop_append_of_le_length hlen]
        exact ih (rest.drop jsonTail.length) (by rw [List.length_drop]; omega)
      · have hp2 : ¬ (btChar :: jsonTail).isPrefixOf (c :: (rest ++ tick3)) = true := by
          intro hcon
          apply hp
          rw [← List.cons_append] at hcon
          exact fence_of_append (c :: rest) hcon
        rw [if_neg hp2, if_neg hp, List.cons_append]
        exact congrArg (List.cons c) (ih rest hrest)

/-- An occurrence of the bare fence that starts inside the appended
fence forces the remaining prefix to consist of fewer than three
backticks. -/
theorem tick_of_append (u : List Char)
    (h : tick3.isPrefixOf (u ++ tick3) = true) (h2 : tick3.isPrefixOf u = false) :
    u = [] ∨ u = [btChar] ∨ u = [btChar, btChar] := by
  rcases u with _ | ⟨a, _ | ⟨b, _ | ⟨c, t⟩⟩⟩
  · exact Or.inl rfl
  · simp only [tick3, tickTail, List.cons_append, List.nil_append, isPrefixOf_cons_cons,
      isPrefixOf_nil_left, Bool.and_eq_true, Bool.and_true] at h
    rw [← eq_of_beq h.1]
    exact Or.inr (Or.inl rfl)
  · simp only [tick3, tickTail, List.cons_append, List.nil_append, isPrefixOf_cons_cons,
      isPrefixOf_nil_left, Bool.and_eq_true, Bool.and_true] at h
    rw [← eq_of_beq h.1, ← eq_of_beq h.2.1]
    exact Or.inr (Or.inr rfl)
  · have key : tick3.isPrefixOf ((a :: b :: c :: t) ++ tick3) =
        tick3.isPrefixOf (a :: b :: c :: t) := by
      simp only [tick3, tickTail, List.cons_append, isPrefixOf_cons_cons]
      rw [isPrefixOf_nil_left, isPrefixOf_nil_left]
    rw [key, h2] at h
    cases h

theorem removeAll_tickTail_append : ∀ (u : List Char),
    removeAll btChar tickTail (u ++ tick3) = removeAll btChar tickTail u := by
  suffices haux : ∀ (n : ℕ) (u : List Char), u.length ≤ n →
      removeAll btChar tickTail (u ++ tick3) = removeAll btChar tickTail u by
    intro u
    exact haux u.length u le_rfl
  intro n
  induction n with
  | zero =>
    intro u hu
    have h0 : u = [] := List.length_eq_zero.mp (Nat.le_zero.mp hu)
    subst h0
    decide
  | succ n ih =>
    intro u hu
    cases u with
    | nil => decide
    | cons c rest =>
      have hrest : rest.length ≤ n := by
        simp only [List.length_cons] at hu
        omega
      by_cases hp : (btChar :: tickTail).isPrefixOf (c :: rest) = true
      · have hp2 : (btChar :: tickTail).isPrefixOf (c :: (rest ++ tick3)) = true := by
          have hext := isPrefixOf_append_extend (btChar :: tickTail) (c :: rest) tick3 hp
          rwa [List.cons_append] at hext
        rw [List.cons_append, removeAll_cons, removeAll_cons, if_pos hp2, if_pos hp]
        have hlen : tickTail.length ≤ rest.length := by
          have h3 := isPrefixOf_length_le (btChar :: tickTail) (c :: rest) hp
          simp only [List.length_cons] at h3
          omega
        rw [List.drop_append_of_le_length hlen]
        exact ih (rest.drop tickTail.length) (by rw [List.length_drop]; omega)
      · by_cases hp2 : (btChar :: tickTail).isPrefixOf (c :: (rest ++ tick3)) = true
        · have hflat : tick3.isPrefixOf ((c :: rest) ++ tick3) = true := by
            rw [List.cons_append]
            exact hp2
          have hfalse : tick3.isPrefixOf (c :: rest) = false := by
            cases hb : (btChar :: tickTail).isPrefixOf (c :: rest) with
            | false => exact hb
            | true => exact absurd hb hp
          rcases tick_of_append (c :: rest) hflat hfalse with h1 | h1 | h1
          · exact absurd h1 (by simp)
          · rw [h1]
            decide
          · rw [h1]
            decide
        · rw [List.cons_append, removeAll_cons, removeAll_cons, if_neg hp2, if_neg hp]
          exact congrArg (List.cons c) (ih rest hrest)

theorem cleanContent_fence_wrapped (s : List Char) :
    cleanContent (jsonFence ++ (s ++ tick3)) = cleanContent s := by
  unfold cleanContent
  rw [removeAll_jsonFence_absorb, removeAll_jsonTail_append, removeAll_tickTail_append]

/-- C7: a provider response wrapped in markdown code-fence markers, the
three-backtick json opener in front and three backticks after, is
cleaned to exactly the same string as the unwrapped response, so any
parser applied after the cleanup step returns the same parsed figures. -/
theorem C7_fenced_response_parses_identically (s : List Char) :
    cleanContent (jsonFence ++ (s ++ tick3)) = cleanContent s ∧
    ∀ (parse : List Char → Option DetectResponse),
      parse (cleanContent (jsonFence ++ (s ++ tick3))) = parse (cleanContent s) := by
  refine ⟨cleanContent_fence_wrapped s, fun parse => ?_⟩
  rw [cleanContent_fence_wrapped s]

end NotesToNotion
